import Mathlib

/-!
Verification of the training-loop orchestration script `finetune.py` (CuteGPT).

The script is modelled as a pure function producing, for a given rank, the
sequence of observable actions of the training loop (engine steps, distributed
barriers, checkpoint saves, progress-bar updates), together with the final
loop state.  External collaborators (the deepspeed engine, the model, the
tokenizer) are abstracted: a forward/backward/step on a batch is an event
carrying the batch loss, a `save_pretrained` is an event carrying the target
directory tag and the current `global_step` as abstract content.
-/

namespace Finetune

/-- Objects written by a checkpoint save: `model.save_pretrained` and
`tokenizer.save_pretrained` in `finetune.py`. -/
inductive SavedObj where
  | model
  | tokenizer
deriving DecidableEq

/-- Structured checkpoint-directory tags produced by the f-strings of
`finetune.py`: `{...}_{global_step}`, `{...}_latest` (lines 145-148) and
`{...}_epoch{epoch}` (lines 161-162). -/
inductive CkptTag where
  | atStep (g : ℕ)
  | latest
  | epochEnd (e : ℕ)
deriving DecidableEq

/-- Observable actions of the training loop (`finetune.py` lines 119-168).
A `save` event records the saved object, the directory tag and, as abstract
content, the value of `global_step` at the moment of the save.  A
`pbarUpdate` records the slice `losses[-200:]` from which the displayed
rolling loss is computed. -/
inductive Event where
  | samplerSetEpoch (e : ℕ)
  | pbarInit
  | trainStep (g : ℕ) (loss : ℚ)
  | barrier
  | save (o : SavedObj) (tag : CkptTag) (content : ℕ)
  | pbarUpdate (window : List ℚ)
  | pbarClose
deriving DecidableEq

/-- Mutable state of the training loop: `global_step` (line 119) and the
per-epoch `losses` list (line 122). -/
structure LoopState where
  global_step : ℕ
  losses : List ℚ
deriving DecidableEq

/-- Python slice `xs[-n:]`: the last `min n xs.length` elements of `xs`. -/
def lastN (n : ℕ) (xs : List ℚ) : List ℚ := xs.drop (xs.length - n)

/-- Lines 142-149 of `finetune.py`: on a step-cadence checkpoint, all ranks hit
a barrier, rank 0 saves model and tokenizer to the `_{global_step}` and
`_latest` directories, then all ranks hit a second barrier. -/
def cadenceBlock (rank : ℤ) (g : ℕ) : List Event :=
  Event.barrier ::
    ((if rank = 0 then
        [Event.save .model (.atStep g) g, Event.save .model .latest g,
         Event.save .tokenizer (.atStep g) g, Event.save .tokenizer .latest g]
      else []) ++ [Event.barrier])

/-- Lines 159-163 of `finetune.py`: at the end of each epoch, all ranks hit a
barrier, rank 0 saves model and tokenizer to the `_epoch{epoch}` directory,
then all ranks hit a second barrier.  `g` is the current `global_step`. -/
def epochSaveBlock (rank : ℤ) (e g : ℕ) : List Event :=
  Event.barrier ::
    ((if rank = 0 then
        [Event.save .model (.epochEnd e) g, Event.save .tokenizer (.epochEnd e) g]
      else []) ++ [Event.barrier])

/-- Lines 128-153 of `finetune.py`, the body of the batch loop: the engine
forward/backward/step, `global_step += 1`, `losses.append(loss.item())`, the
step-cadence checkpoint block, and the rank-0 progress-bar update displaying
`sum(losses[-200:]) / len(losses[-200:])`. -/
def batchBody (ss : ℕ) (rank : ℤ) (loss : ℚ) (s : LoopState) :
    LoopState × List Event :=
  let g := s.global_step + 1
  let ls := s.losses ++ [loss]
  let cad := if g % ss = 0 then cadenceBlock rank g else []
  let disp := if rank = 0 then [Event.pbarUpdate (lastN 200 ls)] else []
  (⟨g, ls⟩, Event.trainStep g loss :: (cad ++ disp))

/-- The batch loop (lines 128-156): process the remaining batches in order,
breaking out as soon as `global_step >= max_steps` (line 155). -/
def runBatches (ss maxSteps : ℕ) (rank : ℤ) : LoopState → List ℚ → LoopState × List Event
  | s, [] => (s, [])
  | s, l :: ls =>
    let r := batchBody ss rank l s
    if maxSteps ≤ r.1.global_step then r
    else
      let r2 := runBatches ss maxSteps rank r.1 ls
      (r2.1, r.2 ++ r2.2)

/-- Lines 121-166, the body of the epoch loop for epoch index `e`: reset
`losses` to `[]`, call `set_epoch` when the rank is not `-1`, create the
rank-0 progress bar, run the batch loop, then the epoch-boundary checkpoint
block and the rank-0 progress-bar close. -/
def epochBody (ss maxSteps : ℕ) (rank : ℤ) (e : ℕ) (batchLosses : List ℚ)
    (s : LoopState) : LoopState × List Event :=
  let pre := (if rank ≠ -1 then [Event.samplerSetEpoch e] else []) ++
             (if rank = 0 then [Event.pbarInit] else [])
  let r := runBatches ss maxSteps rank ⟨s.global_step, []⟩ batchLosses
  let post := epochSaveBlock rank e r.1.global_step ++
              (if rank = 0 then [Event.pbarClose] else [])
  (r.1, pre ++ (r.2 ++ post))

/-- The epoch loop (lines 121-168): run epochs `e, e+1, ...` while fuel `n`
remains, breaking out after an epoch as soon as `global_step >= max_steps`
(line 167). -/
def runEpochs (ss maxSteps : ℕ) (rank : ℤ) (lossesOf : ℕ → List ℚ) :
    ℕ → ℕ → LoopState → LoopState × List Event
  | 0, _, s => (s, [])
  | n + 1, e, s =>
    let r := epochBody ss maxSteps rank e (lossesOf e) s
    if maxSteps ≤ r.1.global_step then r
    else
      let r2 := runEpochs ss maxSteps rank lossesOf n (e + 1) r.1
      (r2.1, r.2 ++ r2.2)

/-- Command-line hyperparameters of `finetune.py` used by the training loop. -/
structure HyperArgs where
  max_epoches : ℕ
  save_steps : ℕ
  save_dir : String
  save_name : String

/-- Lines 117-168 of `finetune.py`: `args.max_steps = args.max_epoches *
len(train_dataloader)`, `global_step = 0`, then the epoch loop over
`range(args.max_epoches)`.  `B` is the number of batches per epoch
(`len(train_dataloader)`) and `lossAt e i` is the loss of batch `i` of
epoch `e`. -/
def trainRun (a : HyperArgs) (rank : ℤ) (B : ℕ) (lossAt : ℕ → ℕ → ℚ) :
    LoopState × List Event :=
  runEpochs a.save_steps (a.max_epoches * B) rank
    (fun e => (List.range B).map (lossAt e)) a.max_epoches 0 ⟨0, []⟩

/-! ### Canonical (break-free) traces

The `break` on line 155 of `finetune.py` can only fire on the very last batch
of the very last epoch (because `max_steps = max_epoches * len(dataloader)`),
so the executed trace coincides with the break-free concatenation of
per-batch and per-epoch chunks.  The lemmas below establish this. -/

/-- Trace of one batch-loop iteration: post-increment counter `g`, per-epoch
losses `ls` accumulated so far (current batch included), batch loss `l`. -/
def batchChunk (ss : ℕ) (rank : ℤ) (g : ℕ) (ls : List ℚ) (l : ℚ) : List Event :=
  Event.trainStep g l ::
    ((if g % ss = 0 then cadenceBlock rank g else []) ++
     (if rank = 0 then [Event.pbarUpdate (lastN 200 ls)] else []))

/-- Trace of the batch loop when no break interrupts it. -/
def batchTraces (ss : ℕ) (rank : ℤ) : LoopState → List ℚ → List Event
  | _, [] => []
  | s, l :: ls =>
    batchChunk ss rank (s.global_step + 1) (s.losses ++ [l]) l ++
      batchTraces ss rank ⟨s.global_step + 1, s.losses ++ [l]⟩ ls

/-- Trace of the body of epoch `e` when the batch loop is not interrupted,
entered with `global_step = g0`. -/
def epochChunk (ss : ℕ) (rank : ℤ) (e g0 : ℕ) (bl : List ℚ) : List Event :=
  ((if rank ≠ -1 then [Event.samplerSetEpoch e] else []) ++
   (if rank = 0 then [Event.pbarInit] else [])) ++
  (batchTraces ss rank ⟨g0, []⟩ bl ++
   (epochSaveBlock rank e (g0 + bl.length) ++
    (if rank = 0 then [Event.pbarClose] else [])))

/-- Canonical trace of the whole run. -/
def fullTrace (ss : ℕ) (rank : ℤ) (E B : ℕ) (lossesOf : ℕ → List ℚ) : List Event :=
  (List.range E).flatMap (fun e => epochChunk ss rank e (e * B) (lossesOf e))

/-! ### Trace observations -/

/-- The post-increment `global_step` values of the engine steps, in order. -/
def stepsOf (tr : List Event) : List ℕ :=
  tr.filterMap fun ev => match ev with
    | .trainStep g _ => some g
    | _ => none

/-- The `(g, content)` pairs of saves of object `o` to a `_{g}` step-tagged
directory, in trace order. -/
def stepSaves (o : SavedObj) (tr : List Event) : List (ℕ × ℕ) :=
  tr.filterMap fun ev => match ev with
    | .save o' (.atStep g) c => if o' = o then some (g, c) else none
    | _ => none

/-- The contents of successive saves of object `o` to the `_latest`
directory, in trace order. -/
def latestSaves (o : SavedObj) (tr : List Event) : List ℕ :=
  tr.filterMap fun ev => match ev with
    | .save o' .latest c => if o' = o then some c else none
    | _ => none

/-- The `(epoch, content)` pairs of saves of object `o` to a `_epoch{e}`
directory, in trace order. -/
def epochSaves (o : SavedObj) (tr : List Event) : List (ℕ × ℕ) :=
  tr.filterMap fun ev => match ev with
    | .save o' (.epochEnd e) c => if o' = o then some (e, c) else none
    | _ => none

/-- The `losses[-200:]` windows of successive progress-bar updates. -/
def pbarWindows (tr : List Event) : List (List ℚ) :=
  tr.filterMap fun ev => match ev with
    | .pbarUpdate w => some w
    | _ => none

/-- The rolling-loss values the progress bar displays:
`sum(losses[-200:]) / len(losses[-200:])`. -/
def pbarVals (tr : List Event) : List ℚ :=
  (pbarWindows tr).map fun w => w.sum / (w.length : ℚ)

/-- Number of `dist.barrier()` calls in the trace. -/
def barrierCount (tr : List Event) : ℕ :=
  tr.countP fun ev => match ev with
    | .barrier => true
    | _ => false

/-- Number of `save_pretrained` calls in the trace. -/
def saveEventCount (tr : List Event) : ℕ :=
  tr.countP fun ev => match ev with
    | .save _ _ _ => true
    | _ => false

/-- Number of progress-bar operations (creation, update, close) in the trace. -/
def pbarEventCount (tr : List Event) : ℕ :=
  tr.countP fun ev => match ev with
    | .pbarInit => true
    | .pbarUpdate _ => true
    | .pbarClose => true
    | _ => false

/-- The sequence of `losses[-200:]` windows produced while appending the batch
losses `ls` one by one to an accumulator `L`. -/
def windowsFrom : List ℚ → List ℚ → List (List ℚ)
  | _, [] => []
  | L, l :: ls => lastN 200 (L ++ [l]) :: windowsFrom (L ++ [l]) ls

/-! ### Observations of the whole run -/

/-- Number of epochs whose body executes: all `max_epoches` of them when the
dataloader is non-empty; when it is empty, only epoch 0 runs (the
`global_step >= max_steps` break fires immediately, `max_steps` being 0) —
and no epoch at all when `max_epoches = 0`. -/
def epochsRun (E B : ℕ) : ℕ := if B = 0 then min E 1 else E

/-! ### Checkpoint directory names -/

/-- The common stem `args.save_dir + args.save_name + '/' + args.save_name` of
all checkpoint f-strings in `finetune.py` (lines 145-148, 161-162). -/
def ckptBase (a : HyperArgs) : String :=
  a.save_dir ++ a.save_name ++ "/" ++ a.save_name

/-- The directory name written for a checkpoint tag, mirroring the f-strings
`f"{...}_{global_step}"`, `f"{...}_latest"` and `f"{...}_epoch{epoch}"`. -/
def tagDir (a : HyperArgs) : CkptTag → String
  | .atStep g => ckptBase a ++ "_" ++ Nat.repr g
  | .latest => ckptBase a ++ "_latest"
  | .epochEnd e => ckptBase a ++ "_epoch" ++ Nat.repr e

/-- The string `s` ends with the suffix `suf`. -/
def strEndsWith (s suf : String) : Prop := ∃ p, s = p ++ suf

/-! ### Injectivity of the decimal representation

`Nat.repr` is the base-10 rendering used by the f-strings; two distinct
`global_step` values render to distinct digit strings, hence distinct
step-tagged checkpoint directories. -/

/-- Structural version of the digit list that `Nat.toDigitsCore` produces for
base 10. -/
def decDigits (n : ℕ) : List Char :=
  if n < 10 then [Nat.digitChar n]
  else decDigits (n / 10) ++ [Nat.digitChar (n % 10)]
decreasing_by exact Nat.div_lt_self (by omega) (by omega)

/-- Final content of checkpoint directory tag `t` for object `o` after the
run: successive saves to the same directory overwrite one another, so the
final content is the last save to that directory in trace order. -/
def finalContent (o : SavedObj) (t : CkptTag) (tr : List Event) : Option ℕ :=
  (tr.filterMap fun ev => match ev with
    | .save o' t' c => if o' = o ∧ t' = t then some c else none
    | _ => none).getLast?

/-! ### Sample inputs used by the witness theorems -/

/-- Small concrete hyperparameters: 1 epoch, `save_steps = 2`. -/
def sampleArgs : HyperArgs := ⟨1, 2, "ckp/", "model"⟩

/-- Constant-zero batch losses. -/
def zeroLoss : ℕ → ℕ → ℚ := fun _ _ => 0

/-! ### Barrier bracketing of checkpoint saves -/

/-- Barrier-bracketing automaton.  State 0: a save may not occur here (the
previous event, if any, was an ordinary one).  State 1: just after a barrier
(a save block may open).  State 2: inside a save block, which must be closed
by a barrier.  The scan returns `none` when a save occurs that is not
immediately preceded by a barrier (through saves of the same block), or when
a save block is followed by anything other than a barrier. -/
def scanBlocks : ℕ → List Event → Option ℕ
  | st, [] => some st
  | _, .barrier :: r => scanBlocks 1 r
  | st, .save _ _ _ :: r => if st = 0 then none else scanBlocks 2 r
  | st, _ :: r => if st = 2 then none else scanBlocks 0 r

/-- The trace never violates barrier bracketing, starting from a non-save
state and ending in a non-save state. -/
def ScanOk (tr : List Event) : Prop :=
  ∀ st : ℕ, st = 0 ∨ st = 1 →
    ∃ st', scanBlocks st tr = some st' ∧ (st' = 0 ∨ st' = 1)

/-- Spec-side rolling mean, following the claim's wording: the arithmetic
mean (sum divided by element count) of the last `min 200 n` recorded batch
losses of the current epoch `e`, where `n = i + 1` is the number of batches
processed so far in that epoch. -/
def specRollingMean (lossAt : ℕ → ℕ → ℚ) (e i : ℕ) : ℚ :=
  (lastN (min 200 (i + 1)) ((List.range (i + 1)).map (lossAt e))).sum /
    ((min 200 (i + 1) : ℕ) : ℚ)

/-! ### Dataset selection (lines 45, 68-78) -/

/-- The admissible `--dataset_type` choices (line 45 of `finetune.py`). -/
def dataset_choices : List String :=
  ["GPT2Dataset_onlyres", "BertDataset_onlyres", "DatasetIds"]

/-- Python's substring test `needle in hay`. -/
def strContains (hay needle : String) : Bool :=
  (List.range (hay.toList.length + 1)).any
    (fun i => needle.toList.isPrefixOf (hay.toList.drop i))

/-- The two possible training-data sources (lines 68-72):
`pickle.load(open(args.data_path, "rb"))` for preprocessed token-id examples,
or `get_multiround_data(args.data_path, rank, max_training_samples)` for raw
multi-round dialogue text. -/
inductive RawData where
  | pickled (data_path : String)
  | multiround (data_path : String) (rank : ℤ) (max_training_samples : ℤ)
deriving DecidableEq

/-- Lines 68-72: the data source is chosen by the substring test
`'Ids' in args.dataset_type`. -/
def loadTrainingData (dataset_type data_path : String) (rank mts : ℤ) :
    RawData :=
  if strContains dataset_type "Ids" then .pickled data_path
  else .multiround data_path rank mts

/-- Abstract tokenizer, materialized from the model path (line 65). -/
structure Tokenizer where
  from_path : String
deriving DecidableEq

/-- The constructed dataset adapter (lines 74-78):
`eval(dataset_type)(tokenizer, datas, max_length)` — the adapter class whose
name equals `args.dataset_type`, applied to the tokenizer, the loaded data
and `args.max_length`. -/
structure TrainDataset where
  ctor_name : String
  tok : Tokenizer
  datas : RawData
  max_length : ℤ
deriving DecidableEq

def buildTrainDataset (dataset_type : String) (tok : Tokenizer)
    (datas : RawData) (max_length : ℤ) : TrainDataset :=
  ⟨dataset_type, tok, datas, max_length⟩

/-! ### Adapter wrapping (lines 96-112) -/

/-- Modelled from the spec: the static adapter configuration `lora_config`
imported from the `config` module, which is not among the sources; it is
treated as an opaque constant. -/
structure LoraConfig where
  tag : Unit
deriving DecidableEq

def lora_config : LoraConfig := ⟨()⟩

/-- Abstract pretrained base model, loaded from `args.model_path` (line 88). -/
structure BaseModel where
  from_path : String
deriving DecidableEq

/-- The adapter-wrapped model: either a `PeftModel.from_pretrained(model,
load_lora_path, is_trainable=True)` resumed from saved adapter weights
(line 100), or a fresh `get_peft_model(model, lora_config)` (line 104). -/
inductive WrappedModel where
  | fromPretrainedPeft (base : BaseModel) (load_lora_path : String)
      ( is_trainable : Bool)
  | freshPeft (base : BaseModel) (cfg : LoraConfig)
deriving DecidableEq

/-- Lines 96-104 of `finetune.py`. -/
def wrapWithLora (load_lora : Bool) (load_lora_path : String)
    (base : BaseModel) : WrappedModel :=
  if load_lora then .fromPretrainedPeft base load_lora_path true
  else .freshPeft base lora_config

/-- Lines 108-112: `deepspeed.initialize` receives the wrapped model. -/
structure EngineSetup where
  model : WrappedModel
deriving DecidableEq

def engineForRun (load_lora : Bool) (load_lora_path : String)
    (base : BaseModel) : EngineSetup :=
  ⟨wrapWithLora load_lora load_lora_path base⟩

/-! ### Directory setup (lines 52-54) and top-level phase order -/

/-- Lines 52-54 of `finetune.py`: for each path in
`[save_dir, save_dir + save_name]`, `os.mkdir(path)` is called exactly when
`os.path.exists(path)` is false.  The filesystem is modelled as the list of
existing paths; the result is the new filesystem together with the list of
paths actually created, in creation order. -/
def mkdirSeq : List String → List String → List String × List String
  | fs, [] => (fs, [])
  | fs, p :: ps =>
    if p ∈ fs then mkdirSeq fs ps
    else
      let r := mkdirSeq (fs ++ [p]) ps
      (r.1, p :: r.2)

def setupDirs (fs : List String) (save_dir save_name : String) :
    List String × List String :=
  mkdirSeq fs [save_dir, save_dir ++ save_name]

/-- Top-level order of the side-effecting phases of `finetune.py`'s main
block (lines 31-168). -/
inductive MainPhase where
  | parse_args
  | seed_rng
  | make_dirs
  | init_dist
  | load_tokenizer
  | load_data
  | build_dataset
  | build_sampler
  | build_loader
  | load_base_model
  | swap_flash_attn
  | wrap_lora
  | engine_setup
  | train_loop
deriving DecidableEq

def mainPhases (use_flash_attention : Bool) : List MainPhase :=
  [.parse_args, .seed_rng, .make_dirs, .init_dist, .load_tokenizer,
   .load_data, .build_dataset, .build_sampler, .build_loader,
   .load_base_model] ++
  (if use_flash_attention then [MainPhase.swap_flash_attn] else []) ++
  [.wrap_lora, .engine_setup, .train_loop]

/-! ### Theorems -/

theorem runBatches_eq (ss maxSteps : ℕ) (rank : ℤ) :
    ∀ (ls : List ℚ) (s : LoopState), s.global_step + ls.length ≤ maxSteps →
    runBatches ss maxSteps rank s ls =
      (⟨s.global_step + ls.length, s.losses ++ ls⟩, batchTraces ss rank s ls) := by
  intro ls
  induction ls with
  | nil => intro s _; simp [runBatches, batchTraces]
  | cons l ls ih =>
    intro s h
    have hg : (batchBody ss rank l s).1.global_step = s.global_step + 1 := rfl
    simp only [List.length_cons] at h
    rw [runBatches]
    by_cases hb : maxSteps ≤ (batchBody ss rank l s).1.global_step
    · rw [if_pos hb]
      rw [hg] at hb
      have hlen : ls.length = 0 := by omega
      have hnil : ls = [] := List.length_eq_zero.mp hlen
      subst hnil
      simp [batchBody, batchTraces, batchChunk]
    · rw [if_neg hb]
      have hrec := ih (batchBody ss rank l s).1 (by rw [hg]; omega)
      rw [hrec]
      simp [batchBody, batchTraces, batchChunk]
      omega

theorem runEpochs_eq (ss : ℕ) (rank : ℤ) (lossesOf : ℕ → List ℚ) (B E : ℕ)
    (hB : 0 < B) (hlen : ∀ e, (lossesOf e).length = B) :
    ∀ (n e : ℕ) (s : LoopState), e + n = E → s.global_step = e * B →
    (runEpochs ss (E * B) rank lossesOf n e s).2 =
      (List.range' e n).flatMap
        (fun i => epochChunk ss rank i (i * B) (lossesOf i)) ∧
    (runEpochs ss (E * B) rank lossesOf n e s).1.global_step = E * B := by
  intro n
  induction n with
  | zero =>
    intro e s he hs
    refine ⟨by simp [runEpochs], ?_⟩
    have : e = E := by omega
    subst this
    simpa [runEpochs] using hs
  | succ n ih =>
    intro e s he hs
    have hle : e * B + B ≤ E * B := by
      have h1 : e + 1 ≤ E := by omega
      calc e * B + B = (e + 1) * B := by ring
        _ ≤ E * B := Nat.mul_le_mul_right B h1
    have hrb := runBatches_eq ss (E * B) rank (lossesOf e) ⟨s.global_step, []⟩
      (by simp only [hlen e, hs]; simpa using hle)
    rw [hs] at hrb
    have hbody : epochBody ss (E * B) rank e (lossesOf e) s =
        (⟨e * B + B, lossesOf e⟩,
         epochChunk ss rank e (e * B) (lossesOf e)) := by
      simp only [epochBody, hs, hrb, epochChunk, hlen e, List.nil_append]
    rw [runEpochs, hbody]
    by_cases hstop : E * B ≤ e * B + B
    · have hE1 : E ≤ e + 1 := by
        by_contra hcon
        have h2 : (e + 2) * B ≤ E * B := Nat.mul_le_mul_right B (by omega)
        have h3 : e * B + 2 * B ≤ E * B := by
          calc e * B + 2 * B = (e + 2) * B := by ring
            _ ≤ E * B := h2
        have h4 : e * B + 2 * B ≤ e * B + B := le_trans h3 hstop
        have h5 : 2 * B ≤ B := Nat.le_of_add_le_add_left h4
        omega
      have hn : n = 0 := by omega
      have hE : E = e + 1 := by omega
      subst hn hE
      rw [if_pos hstop]
      refine ⟨by simp, by ring⟩
    · rw [if_neg hstop]
      have hrec := ih (e + 1) ⟨e * B + B, lossesOf e⟩ (by omega)
        (by simp; ring)
      refine ⟨?_, by simpa using hrec.2⟩
      simp only [hrec.1]
      rw [List.range'_succ, List.flatMap_cons]

theorem trainRun_trace (a : HyperArgs) (rank : ℤ) (B : ℕ) (lossAt : ℕ → ℕ → ℚ)
    (hB : 0 < B) :
    (trainRun a rank B lossAt).2 =
      fullTrace a.save_steps rank a.max_epoches B
        (fun e => (List.range B).map (lossAt e)) ∧
    (trainRun a rank B lossAt).1.global_step = a.max_epoches * B := by
  have h := runEpochs_eq a.save_steps rank (fun e => (List.range B).map (lossAt e))
    B a.max_epoches hB (fun e => by simp) a.max_epoches 0 ⟨0, []⟩ (by omega) (by simp)
  have h1 := h.1
  refine ⟨?_, h.2⟩
  simp only [trainRun, fullTrace, List.range_eq_range'] at h1 ⊢
  exact h1

/-- With an empty dataloader (`B = 0`) the run performs no steps: epoch 0 (when
`max_epoches > 0`) runs an empty batch loop, saves its epoch checkpoint, and
the loop exits via the `global_step >= max_steps` break with `max_steps = 0`. -/
theorem trainRun_trace_zero (a : HyperArgs) (rank : ℤ) (lossAt : ℕ → ℕ → ℚ) :
    (trainRun a rank 0 lossAt).2 =
      (if a.max_epoches = 0 then [] else epochChunk a.save_steps rank 0 0 []) ∧
    (trainRun a rank 0 lossAt).1.global_step = 0 := by
  cases hE : a.max_epoches with
  | zero => simp [trainRun, hE, runEpochs]
  | succ n =>
    simp [trainRun, hE, runEpochs, epochBody, runBatches, epochChunk, batchTraces]

theorem stepsOf_append (t u : List Event) :
    stepsOf (t ++ u) = stepsOf t ++ stepsOf u := by simp [stepsOf]

theorem stepSaves_append (o : SavedObj) (t u : List Event) :
    stepSaves o (t ++ u) = stepSaves o t ++ stepSaves o u := by simp [stepSaves]

theorem latestSaves_append (o : SavedObj) (t u : List Event) :
    latestSaves o (t ++ u) = latestSaves o t ++ latestSaves o u := by
  simp [latestSaves]

theorem epochSaves_append (o : SavedObj) (t u : List Event) :
    epochSaves o (t ++ u) = epochSaves o t ++ epochSaves o u := by
  simp [epochSaves]

theorem pbarWindows_append (t u : List Event) :
    pbarWindows (t ++ u) = pbarWindows t ++ pbarWindows u := by simp [pbarWindows]

/-! ### Observations of one batch chunk -/

theorem stepsOf_chunk (ss : ℕ) (rank : ℤ) (g : ℕ) (ls : List ℚ) (l : ℚ) :
    stepsOf (batchChunk ss rank g ls l) = [g] := by
  by_cases hr : rank = 0 <;> by_cases hc : g % ss = 0 <;>
    simp [batchChunk, cadenceBlock, stepsOf, hr, hc]

theorem stepSaves_chunk (ss : ℕ) (rank : ℤ) (o : SavedObj) (g : ℕ) (ls : List ℚ)
    (l : ℚ) :
    stepSaves o (batchChunk ss rank g ls l) =
      if g % ss == 0 then (if rank = 0 then [(g, g)] else []) else [] := by
  cases o <;> by_cases hr : rank = 0 <;> by_cases hc : g % ss = 0 <;>
    simp [batchChunk, cadenceBlock, stepSaves, hr, hc]

theorem latestSaves_chunk (ss : ℕ) (rank : ℤ) (o : SavedObj) (g : ℕ) (ls : List ℚ)
    (l : ℚ) :
    latestSaves o (batchChunk ss rank g ls l) =
      if g % ss == 0 then (if rank = 0 then [g] else []) else [] := by
  cases o <;> by_cases hr : rank = 0 <;> by_cases hc : g % ss = 0 <;>
    simp [batchChunk, cadenceBlock, latestSaves, hr, hc]

theorem epochSaves_chunk (ss : ℕ) (rank : ℤ) (o : SavedObj) (g : ℕ) (ls : List ℚ)
    (l : ℚ) :
    epochSaves o (batchChunk ss rank g ls l) = [] := by
  cases o <;> by_cases hr : rank = 0 <;> by_cases hc : g % ss = 0 <;>
    simp [batchChunk, cadenceBlock, epochSaves, hr, hc]

theorem pbarWindows_chunk (ss : ℕ) (rank : ℤ) (g : ℕ) (ls : List ℚ) (l : ℚ) :
    pbarWindows (batchChunk ss rank g ls l) =
      if rank = 0 then [lastN 200 ls] else [] := by
  by_cases hr : rank = 0 <;> by_cases hc : g % ss = 0 <;>
    simp [batchChunk, cadenceBlock, pbarWindows, hr, hc]

theorem barrierCount_chunk (ss : ℕ) (rank : ℤ) (g : ℕ) (ls : List ℚ) (l : ℚ) :
    barrierCount (batchChunk ss rank g ls l) = if g % ss == 0 then 2 else 0 := by
  by_cases hr : rank = 0 <;> by_cases hc : g % ss = 0 <;>
    simp [batchChunk, cadenceBlock, barrierCount, hr, hc]

theorem saveEventCount_chunk (ss : ℕ) (rank : ℤ) (g : ℕ) (ls : List ℚ) (l : ℚ)
    (hr : rank ≠ 0) : saveEventCount (batchChunk ss rank g ls l) = 0 := by
  by_cases hc : g % ss = 0 <;>
    simp [batchChunk, cadenceBlock, saveEventCount, hr, hc]

theorem pbarEventCount_chunk (ss : ℕ) (rank : ℤ) (g : ℕ) (ls : List ℚ) (l : ℚ)
    (hr : rank ≠ 0) : pbarEventCount (batchChunk ss rank g ls l) = 0 := by
  by_cases hc : g % ss = 0 <;>
    simp [batchChunk, cadenceBlock, pbarEventCount, hr, hc]

/-! ### Observations of the break-free batch loop -/

theorem stepsOf_batchTraces (ss : ℕ) (rank : ℤ) :
    ∀ (ls : List ℚ) (s : LoopState),
    stepsOf (batchTraces ss rank s ls) =
      List.range' (s.global_step + 1) ls.length := by
  intro ls
  induction ls with
  | nil => intro s; rfl
  | cons l ls ih =>
    intro s
    rw [batchTraces, stepsOf_append, stepsOf_chunk, ih]
    simp [List.range'_succ]

theorem stepSaves_batchTraces (ss : ℕ) (rank : ℤ) (o : SavedObj) :
    ∀ (ls : List ℚ) (s : LoopState),
    stepSaves o (batchTraces ss rank s ls) =
      if rank = 0 then
        ((List.range' (s.global_step + 1) ls.length).filter
          (fun g => g % ss == 0)).map (fun g => (g, g))
      else [] := by
  intro ls
  induction ls with
  | nil => intro s; cases o <;> simp [batchTraces, stepSaves]
  | cons l ls ih =>
    intro s
    rw [batchTraces, stepSaves_append, stepSaves_chunk, ih]
    by_cases hr : rank = 0 <;> by_cases hc : (s.global_step + 1) % ss = 0 <;>
      simp [List.range'_succ, List.filter_cons, hr, hc]

theorem latestSaves_batchTraces (ss : ℕ) (rank : ℤ) (o : SavedObj) :
    ∀ (ls : List ℚ) (s : LoopState),
    latestSaves o (batchTraces ss rank s ls) =
      if rank = 0 then
        (List.range' (s.global_step + 1) ls.length).filter (fun g => g % ss == 0)
      else [] := by
  intro ls
  induction ls with
  | nil => intro s; cases o <;> simp [batchTraces, latestSaves]
  | cons l ls ih =>
    intro s
    rw [batchTraces, latestSaves_append, latestSaves_chunk, ih]
    by_cases hr : rank = 0 <;> by_cases hc : (s.global_step + 1) % ss = 0 <;>
      simp [List.range'_succ, List.filter_cons, hr, hc]

theorem epochSaves_batchTraces (ss : ℕ) (rank : ℤ) (o : SavedObj) :
    ∀ (ls : List ℚ) (s : LoopState),
    epochSaves o (batchTraces ss rank s ls) = [] := by
  intro ls
  induction ls with
  | nil => intro s; cases o <;> simp [batchTraces, epochSaves]
  | cons l ls ih =>
    intro s
    rw [batchTraces, epochSaves_append, epochSaves_chunk, ih]
    simp

theorem pbarWindows_batchTraces (ss : ℕ) (rank : ℤ) :
    ∀ (ls : List ℚ) (s : LoopState),
    pbarWindows (batchTraces ss rank s ls) =
      if rank = 0 then windowsFrom s.losses ls else [] := by
  intro ls
  induction ls with
  | nil => intro s; simp [batchTraces, pbarWindows, windowsFrom]
  | cons l ls ih =>
    intro s
    rw [batchTraces, pbarWindows_append, pbarWindows_chunk, ih]
    by_cases hr : rank = 0 <;> simp [windowsFrom, hr]

theorem barrierCount_batchTraces (ss : ℕ) (rank : ℤ) :
    ∀ (ls : List ℚ) (s : LoopState),
    barrierCount (batchTraces ss rank s ls) =
      2 * ((List.range' (s.global_step + 1) ls.length).filter
            (fun g => g % ss == 0)).length := by
  intro ls
  induction ls with
  | nil => intro s; rfl
  | cons l ls ih =>
    intro s
    have happ : ∀ t u, barrierCount (t ++ u) = barrierCount t + barrierCount u := by
      intro t u; simp [barrierCount]
    rw [batchTraces, happ, barrierCount_chunk, ih]
    by_cases hc : (s.global_step + 1) % ss = 0 <;>
      simp [List.range'_succ, List.filter_cons, hc] <;> omega

theorem saveEventCount_batchTraces (ss : ℕ) (rank : ℤ) (hr : rank ≠ 0) :
    ∀ (ls : List ℚ) (s : LoopState),
    saveEventCount (batchTraces ss rank s ls) = 0 := by
  intro ls
  induction ls with
  | nil => intro s; rfl
  | cons l ls ih =>
    intro s
    have happ : ∀ t u, saveEventCount (t ++ u) = saveEventCount t + saveEventCount u := by
      intro t u; simp [saveEventCount]
    rw [batchTraces, happ, saveEventCount_chunk ss rank _ _ _ hr, ih]

theorem pbarEventCount_batchTraces (ss : ℕ) (rank : ℤ) (hr : rank ≠ 0) :
    ∀ (ls : List ℚ) (s : LoopState),
    pbarEventCount (batchTraces ss rank s ls) = 0 := by
  intro ls
  induction ls with
  | nil => intro s; rfl
  | cons l ls ih =>
    intro s
    have happ : ∀ t u, pbarEventCount (t ++ u) = pbarEventCount t + pbarEventCount u := by
      intro t u; simp [pbarEventCount]
    rw [batchTraces, happ, pbarEventCount_chunk ss rank _ _ _ hr, ih]

/-! ### Observations of one epoch chunk -/

theorem stepsOf_epochChunk (ss : ℕ) (rank : ℤ) (e g0 : ℕ) (bl : List ℚ) :
    stepsOf (epochChunk ss rank e g0 bl) = List.range' (g0 + 1) bl.length := by
  rw [epochChunk]
  rw [stepsOf_append, stepsOf_append, stepsOf_append, stepsOf_append]
  rw [stepsOf_batchTraces]
  by_cases hr : rank = 0 <;> by_cases hm : rank = -1 <;>
    simp [stepsOf, epochSaveBlock, hr, hm]

theorem stepSaves_epochChunk (ss : ℕ) (rank : ℤ) (o : SavedObj) (e g0 : ℕ)
    (bl : List ℚ) :
    stepSaves o (epochChunk ss rank e g0 bl) =
      if rank = 0 then
        ((List.range' (g0 + 1) bl.length).filter
          (fun g => g % ss == 0)).map (fun g => (g, g))
      else [] := by
  rw [epochChunk]
  rw [stepSaves_append, stepSaves_append, stepSaves_append, stepSaves_append]
  rw [stepSaves_batchTraces]
  cases o <;> by_cases hr : rank = 0 <;> by_cases hm : rank = -1 <;>
    simp [stepSaves, epochSaveBlock, hr, hm]

theorem latestSaves_epochChunk (ss : ℕ) (rank : ℤ) (o : SavedObj) (e g0 : ℕ)
    (bl : List ℚ) :
    latestSaves o (epochChunk ss rank e g0 bl) =
      if rank = 0 then
        (List.range' (g0 + 1) bl.length).filter (fun g => g % ss == 0)
      else [] := by
  rw [epochChunk]
  rw [latestSaves_append, latestSaves_append, latestSaves_append,
    latestSaves_append]
  rw [latestSaves_batchTraces]
  cases o <;> by_cases hr : rank = 0 <;> by_cases hm : rank = -1 <;>
    simp [latestSaves, epochSaveBlock, hr, hm]

theorem epochSaves_epochChunk (ss : ℕ) (rank : ℤ) (o : SavedObj) (e g0 : ℕ)
    (bl : List ℚ) :
    epochSaves o (epochChunk ss rank e g0 bl) =
      if rank = 0 then [(e, g0 + bl.length)] else [] := by
  rw [epochChunk]
  rw [epochSaves_append, epochSaves_append, epochSaves_append, epochSaves_append]
  rw [epochSaves_batchTraces]
  cases o <;> by_cases hr : rank = 0 <;> by_cases hm : rank = -1 <;>
    simp [epochSaves, epochSaveBlock, hr, hm]

theorem pbarWindows_epochChunk (ss : ℕ) (rank : ℤ) (e g0 : ℕ) (bl : List ℚ) :
    pbarWindows (epochChunk ss rank e g0 bl) =
      if rank = 0 then windowsFrom [] bl else [] := by
  rw [epochChunk]
  rw [pbarWindows_append, pbarWindows_append, pbarWindows_append,
    pbarWindows_append]
  rw [pbarWindows_batchTraces]
  by_cases hr : rank = 0 <;> by_cases hm : rank = -1 <;>
    simp [pbarWindows, epochSaveBlock, hr, hm]

theorem barrierCount_epochChunk (ss : ℕ) (rank : ℤ) (e g0 : ℕ) (bl : List ℚ) :
    barrierCount (epochChunk ss rank e g0 bl) =
      2 * ((List.range' (g0 + 1) bl.length).filter
            (fun g => g % ss == 0)).length + 2 := by
  have happ : ∀ t u, barrierCount (t ++ u) = barrierCount t + barrierCount u := by
    intro t u; simp [barrierCount]
  rw [epochChunk, happ, happ, happ, happ, barrierCount_batchTraces]
  by_cases hr : rank = 0 <;> by_cases hm : rank = -1 <;>
    simp [barrierCount, epochSaveBlock, hr, hm] <;> omega

theorem saveEventCount_epochChunk (ss : ℕ) (rank : ℤ) (hr : rank ≠ 0) (e g0 : ℕ)
    (bl : List ℚ) : saveEventCount (epochChunk ss rank e g0 bl) = 0 := by
  have happ : ∀ t u, saveEventCount (t ++ u) = saveEventCount t + saveEventCount u := by
    intro t u; simp [saveEventCount]
  rw [epochChunk, happ, happ, happ, happ, saveEventCount_batchTraces ss rank hr]
  by_cases hm : rank = -1 <;> simp [saveEventCount, epochSaveBlock, hr, hm]

theorem pbarEventCount_epochChunk (ss : ℕ) (rank : ℤ) (hr : rank ≠ 0) (e g0 : ℕ)
    (bl : List ℚ) : pbarEventCount (epochChunk ss rank e g0 bl) = 0 := by
  have happ : ∀ t u, pbarEventCount (t ++ u) = pbarEventCount t + pbarEventCount u := by
    intro t u; simp [pbarEventCount]
  rw [epochChunk, happ, happ, happ, happ, pbarEventCount_batchTraces ss rank hr]
  by_cases hm : rank = -1 <;> simp [pbarEventCount, epochSaveBlock, hr, hm]

/-! ### Observations of the full trace -/

theorem fullTrace_succ (ss : ℕ) (rank : ℤ) (E B : ℕ) (lossesOf : ℕ → List ℚ) :
    fullTrace ss rank (E + 1) B lossesOf =
      fullTrace ss rank E B lossesOf ++
        epochChunk ss rank E (E * B) (lossesOf E) := by
  simp [fullTrace, List.range_succ]

theorem stepsOf_fullTrace (ss : ℕ) (rank : ℤ) (B : ℕ) (lossesOf : ℕ → List ℚ)
    (hlen : ∀ e, (lossesOf e).length = B) :
    ∀ E, stepsOf (fullTrace ss rank E B lossesOf) = List.range' 1 (E * B) := by
  intro E
  induction E with
  | zero => simp [fullTrace, stepsOf]
  | succ E ih =>
    rw [fullTrace_succ, stepsOf_append, ih, stepsOf_epochChunk, hlen]
    rw [Nat.add_comm (E * B) 1, List.range'_append_1]
    have h2 : B + E * B = (E + 1) * B := by ring
    rw [h2]

theorem stepSaves_fullTrace (ss : ℕ) (o : SavedObj) (B : ℕ)
    (lossesOf : ℕ → List ℚ) (hlen : ∀ e, (lossesOf e).length = B) :
    ∀ E, stepSaves o (fullTrace ss 0 E B lossesOf) =
      ((List.range' 1 (E * B)).filter (fun g => g % ss == 0)).map
        (fun g => (g, g)) := by
  intro E
  induction E with
  | zero => cases o <;> simp [fullTrace, stepSaves]
  | succ E ih =>
    rw [fullTrace_succ, stepSaves_append, ih, stepSaves_epochChunk, hlen]
    rw [if_pos rfl, ← List.map_append, ← List.filter_append]
    rw [Nat.add_comm (E * B) 1, List.range'_append_1]
    have h2 : B + E * B = (E + 1) * B := by ring
    rw [h2]

theorem latestSaves_fullTrace (ss : ℕ) (o : SavedObj) (B : ℕ)
    (lossesOf : ℕ → List ℚ) (hlen : ∀ e, (lossesOf e).length = B) :
    ∀ E, latestSaves o (fullTrace ss 0 E B lossesOf) =
      (List.range' 1 (E * B)).filter (fun g => g % ss == 0) := by
  intro E
  induction E with
  | zero => cases o <;> simp [fullTrace, latestSaves]
  | succ E ih =>
    rw [fullTrace_succ, latestSaves_append, ih, latestSaves_epochChunk, hlen]
    rw [if_pos rfl, ← List.filter_append]
    rw [Nat.add_comm (E * B) 1, List.range'_append_1]
    have h2 : B + E * B = (E + 1) * B := by ring
    rw [h2]

theorem epochSaves_fullTrace (ss : ℕ) (o : SavedObj) (B : ℕ)
    (lossesOf : ℕ → List ℚ) (hlen : ∀ e, (lossesOf e).length = B) :
    ∀ E, epochSaves o (fullTrace ss 0 E B lossesOf) =
      (List.range E).map (fun e => (e, e * B + B)) := by
  intro E
  induction E with
  | zero => cases o <;> rfl
  | succ E ih =>
    rw [fullTrace_succ, epochSaves_append, ih, epochSaves_epochChunk, hlen]
    simp [List.range_succ]

theorem pbarWindows_fullTrace (ss : ℕ) (B : ℕ) (lossesOf : ℕ → List ℚ) :
    ∀ E, pbarWindows (fullTrace ss 0 E B lossesOf) =
      (List.range E).flatMap (fun e => windowsFrom [] (lossesOf e)) := by
  intro E
  induction E with
  | zero => rfl
  | succ E ih =>
    rw [fullTrace_succ, pbarWindows_append, ih, pbarWindows_epochChunk]
    simp [List.range_succ]

theorem barrierCount_fullTrace (ss : ℕ) (rank : ℤ) (B : ℕ)
    (lossesOf : ℕ → List ℚ) (hlen : ∀ e, (lossesOf e).length = B) :
    ∀ E, barrierCount (fullTrace ss rank E B lossesOf) =
      2 * ((List.range' 1 (E * B)).filter (fun g => g % ss == 0)).length +
        2 * E := by
  intro E
  induction E with
  | zero => simp [fullTrace, barrierCount]
  | succ E ih =>
    have happ : ∀ t u, barrierCount (t ++ u) = barrierCount t + barrierCount u := by
      intro t u; simp [barrierCount]
    rw [fullTrace_succ, happ, ih, barrierCount_epochChunk, hlen]
    have hsplit : ((List.range' 1 ((E + 1) * B)).filter (fun g => g % ss == 0)).length =
        ((List.range' 1 (E * B)).filter (fun g => g % ss == 0)).length +
        ((List.range' (E * B + 1) B).filter (fun g => g % ss == 0)).length := by
      have h2 : (E + 1) * B = B + E * B := by ring
      rw [h2, ← List.range'_append_1, List.filter_append, List.length_append,
        Nat.add_comm 1 (E * B)]
    omega

theorem saveEventCount_fullTrace (ss : ℕ) (rank : ℤ) (hr : rank ≠ 0) (B : ℕ)
    (lossesOf : ℕ → List ℚ) :
    ∀ E, saveEventCount (fullTrace ss rank E B lossesOf) = 0 := by
  intro E
  induction E with
  | zero => rfl
  | succ E ih =>
    have happ : ∀ t u, saveEventCount (t ++ u) = saveEventCount t + saveEventCount u := by
      intro t u; simp [saveEventCount]
    rw [fullTrace_succ, happ, ih, saveEventCount_epochChunk ss rank hr]

theorem pbarEventCount_fullTrace (ss : ℕ) (rank : ℤ) (hr : rank ≠ 0) (B : ℕ)
    (lossesOf : ℕ → List ℚ) :
    ∀ E, pbarEventCount (fullTrace ss rank E B lossesOf) = 0 := by
  intro E
  induction E with
  | zero => rfl
  | succ E ih =>
    have happ : ∀ t u, pbarEventCount (t ++ u) = pbarEventCount t + pbarEventCount u := by
      intro t u; simp [pbarEventCount]
    rw [fullTrace_succ, happ, ih, pbarEventCount_epochChunk ss rank hr]

theorem stepsOf_trainRun (a : HyperArgs) (rank : ℤ) (B : ℕ) (lossAt : ℕ → ℕ → ℚ) :
    stepsOf (trainRun a rank B lossAt).2 = List.range' 1 (a.max_epoches * B) := by
  cases B with
  | zero =>
    rw [(trainRun_trace_zero a rank lossAt).1]
    cases hE : a.max_epoches with
    | zero => simp [stepsOf]
    | succ n => simp [stepsOf_epochChunk]
  | succ b =>
    rw [(trainRun_trace a rank (b + 1) lossAt (Nat.succ_pos b)).1,
      stepsOf_fullTrace _ _ _ _ (fun e => by simp)]

theorem stepSaves_trainRun (a : HyperArgs) (B : ℕ) (lossAt : ℕ → ℕ → ℚ)
    (o : SavedObj) :
    stepSaves o (trainRun a 0 B lossAt).2 =
      ((List.range' 1 (a.max_epoches * B)).filter
        (fun g => g % a.save_steps == 0)).map (fun g => (g, g)) := by
  cases B with
  | zero =>
    rw [(trainRun_trace_zero a 0 lossAt).1]
    cases hE : a.max_epoches with
    | zero => cases o <;> simp [stepSaves]
    | succ n => simp [stepSaves_epochChunk]
  | succ b =>
    rw [(trainRun_trace a 0 (b + 1) lossAt (Nat.succ_pos b)).1,
      stepSaves_fullTrace _ _ _ _ (fun e => by simp)]

theorem latestSaves_trainRun (a : HyperArgs) (B : ℕ) (lossAt : ℕ → ℕ → ℚ)
    (o : SavedObj) :
    latestSaves o (trainRun a 0 B lossAt).2 =
      (List.range' 1 (a.max_epoches * B)).filter
        (fun g => g % a.save_steps == 0) := by
  cases B with
  | zero =>
    rw [(trainRun_trace_zero a 0 lossAt).1]
    cases hE : a.max_epoches with
    | zero => cases o <;> simp [latestSaves]
    | succ n => simp [latestSaves_epochChunk]
  | succ b =>
    rw [(trainRun_trace a 0 (b + 1) lossAt (Nat.succ_pos b)).1,
      latestSaves_fullTrace _ _ _ _ (fun e => by simp)]

theorem epochSaves_trainRun (a : HyperArgs) (B : ℕ) (lossAt : ℕ → ℕ → ℚ)
    (o : SavedObj) :
    epochSaves o (trainRun a 0 B lossAt).2 =
      (List.range (epochsRun a.max_epoches B)).map (fun e => (e, e * B + B)) := by
  cases B with
  | zero =>
    rw [(trainRun_trace_zero a 0 lossAt).1]
    cases hE : a.max_epoches with
    | zero => cases o <;> simp [epochSaves, epochsRun]
    | succ n => simp [epochSaves_epochChunk, epochsRun]; decide
  | succ b =>
    rw [(trainRun_trace a 0 (b + 1) lossAt (Nat.succ_pos b)).1,
      epochSaves_fullTrace _ _ _ _ (fun e => by simp), epochsRun]
    simp

theorem pbarWindows_trainRun (a : HyperArgs) (B : ℕ) (lossAt : ℕ → ℕ → ℚ) :
    pbarWindows (trainRun a 0 B lossAt).2 =
      (List.range (epochsRun a.max_epoches B)).flatMap
        (fun e => windowsFrom [] ((List.range B).map (lossAt e))) := by
  cases B with
  | zero =>
    rw [(trainRun_trace_zero a 0 lossAt).1]
    cases hE : a.max_epoches with
    | zero => simp [pbarWindows, epochsRun]
    | succ n =>
      simp [pbarWindows_epochChunk, epochsRun, windowsFrom]
  | succ b =>
    rw [(trainRun_trace a 0 (b + 1) lossAt (Nat.succ_pos b)).1,
      pbarWindows_fullTrace, epochsRun]
    simp

theorem barrierCount_trainRun (a : HyperArgs) (rank : ℤ) (B : ℕ)
    (lossAt : ℕ → ℕ → ℚ) :
    barrierCount (trainRun a rank B lossAt).2 =
      2 * ((List.range' 1 (a.max_epoches * B)).filter
            (fun g => g % a.save_steps == 0)).length +
        2 * epochsRun a.max_epoches B := by
  cases B with
  | zero =>
    rw [(trainRun_trace_zero a rank lossAt).1]
    cases hE : a.max_epoches with
    | zero => simp [barrierCount, epochsRun]
    | succ n => simp [barrierCount_epochChunk, epochsRun]
  | succ b =>
    rw [(trainRun_trace a rank (b + 1) lossAt (Nat.succ_pos b)).1,
      barrierCount_fullTrace _ _ _ _ (fun e => by simp), epochsRun]
    simp

theorem saveEventCount_trainRun (a : HyperArgs) (rank : ℤ) (hr : rank ≠ 0)
    (B : ℕ) (lossAt : ℕ → ℕ → ℚ) :
    saveEventCount (trainRun a rank B lossAt).2 = 0 := by
  cases B with
  | zero =>
    rw [(trainRun_trace_zero a rank lossAt).1]
    cases hE : a.max_epoches with
    | zero => simp [saveEventCount]
    | succ n => simp [saveEventCount_epochChunk a.save_steps rank hr]
  | succ b =>
    rw [(trainRun_trace a rank (b + 1) lossAt (Nat.succ_pos b)).1,
      saveEventCount_fullTrace _ _ hr]

theorem pbarEventCount_trainRun (a : HyperArgs) (rank : ℤ) (hr : rank ≠ 0)
    (B : ℕ) (lossAt : ℕ → ℕ → ℚ) :
    pbarEventCount (trainRun a rank B lossAt).2 = 0 := by
  cases B with
  | zero =>
    rw [(trainRun_trace_zero a rank lossAt).1]
    cases hE : a.max_epoches with
    | zero => simp [pbarEventCount]
    | succ n => simp [pbarEventCount_epochChunk a.save_steps rank hr]
  | succ b =>
    rw [(trainRun_trace a rank (b + 1) lossAt (Nat.succ_pos b)).1,
      pbarEventCount_fullTrace _ _ hr]

/-! ### Membership bridges between events and observations -/

theorem mem_stepSaves (o : SavedObj) (g c : ℕ) (tr : List Event) :
    (g, c) ∈ stepSaves o tr ↔ Event.save o (.atStep g) c ∈ tr := by
  rw [stepSaves, List.mem_filterMap]
  constructor
  · rintro ⟨ev, hev, hf⟩
    cases ev with
    | save o' tag c' =>
      cases tag with
      | atStep g' =>
        by_cases ho : o' = o
        · simp [ho] at hf
          obtain ⟨rfl, rfl⟩ := hf
          rwa [ho] at hev
        · simp [ho] at hf
      | latest => simp at hf
      | epochEnd e => simp at hf
    | samplerSetEpoch e => simp at hf
    | pbarInit => simp at hf
    | trainStep g' l => simp at hf
    | barrier => simp at hf
    | pbarUpdate w => simp at hf
    | pbarClose => simp at hf
  · intro hev
    exact ⟨_, hev, by simp⟩

theorem mem_latestSaves (o : SavedObj) (c : ℕ) (tr : List Event) :
    c ∈ latestSaves o tr ↔ Event.save o .latest c ∈ tr := by
  rw [latestSaves, List.mem_filterMap]
  constructor
  · rintro ⟨ev, hev, hf⟩
    cases ev with
    | save o' tag c' =>
      cases tag with
      | atStep g' => simp at hf
      | latest =>
        by_cases ho : o' = o
        · simp [ho] at hf
          obtain rfl := hf
          rwa [ho] at hev
        · simp [ho] at hf
      | epochEnd e => simp at hf
    | samplerSetEpoch e => simp at hf
    | pbarInit => simp at hf
    | trainStep g' l => simp at hf
    | barrier => simp at hf
    | pbarUpdate w => simp at hf
    | pbarClose => simp at hf
  · intro hev
    exact ⟨_, hev, by simp⟩

theorem mem_epochSaves (o : SavedObj) (e c : ℕ) (tr : List Event) :
    (e, c) ∈ epochSaves o tr ↔ Event.save o (.epochEnd e) c ∈ tr := by
  rw [epochSaves, List.mem_filterMap]
  constructor
  · rintro ⟨ev, hev, hf⟩
    cases ev with
    | save o' tag c' =>
      cases tag with
      | atStep g' => simp at hf
      | latest => simp at hf
      | epochEnd e' =>
        by_cases ho : o' = o
        · simp [ho] at hf
          obtain ⟨rfl, rfl⟩ := hf
          rwa [ho] at hev
        · simp [ho] at hf
    | samplerSetEpoch e' => simp at hf
    | pbarInit => simp at hf
    | trainStep g' l => simp at hf
    | barrier => simp at hf
    | pbarUpdate w => simp at hf
    | pbarClose => simp at hf
  · intro hev
    exact ⟨_, hev, by simp⟩

theorem save_not_mem_of_count_zero (tr : List Event)
    (h : saveEventCount tr = 0) (o : SavedObj) (t : CkptTag) (c : ℕ) :
    Event.save o t c ∉ tr := by
  intro hmem
  rw [saveEventCount, List.countP_eq_zero] at h
  have h2 := h _ hmem
  simp at h2

theorem pbarWindows_eq_nil_of_count_zero (tr : List Event)
    (h : pbarEventCount tr = 0) : pbarWindows tr = [] := by
  rw [pbarEventCount, List.countP_eq_zero] at h
  rw [pbarWindows, List.filterMap_eq_nil_iff]
  intro ev hev
  have := h ev hev
  cases ev <;> simp_all

theorem tagDir_atStep_endsWith (a : HyperArgs) (g : ℕ) :
    strEndsWith (tagDir a (.atStep g)) ("_" ++ Nat.repr g) :=
  ⟨ckptBase a, (String.append_assoc _ _ _)⟩

theorem tagDir_latest_endsWith (a : HyperArgs) :
    strEndsWith (tagDir a .latest) "_latest" :=
  ⟨ckptBase a, rfl⟩

theorem tagDir_epochEnd_endsWith (a : HyperArgs) (e : ℕ) :
    strEndsWith (tagDir a (.epochEnd e)) ("_epoch" ++ Nat.repr e) :=
  ⟨ckptBase a, (String.append_assoc _ _ _)⟩

theorem toDigitsCore_eq_decDigits :
    ∀ (fuel n : ℕ) (ds : List Char), n < fuel →
    Nat.toDigitsCore 10 fuel n ds = decDigits n ++ ds := by
  intro fuel
  induction fuel with
  | zero => intro n ds h; omega
  | succ fuel ih =>
    intro n ds h
    rw [Nat.toDigitsCore]
    by_cases h0 : n / 10 = 0
    · have hn : n < 10 := by omega
      rw [if_pos h0, decDigits, if_pos hn, Nat.mod_eq_of_lt hn]
      rfl
    · have hn : ¬n < 10 := by omega
      have hlt : n / 10 < fuel := by
        have h1 : n / 10 < n := Nat.div_lt_self (by omega) (by omega)
        omega
      rw [if_neg h0, ih (n / 10) _ hlt]
      conv_rhs => rw [decDigits]
      rw [if_neg hn]
      simp

theorem digitChar_inj_lt :
    ∀ x < 10, ∀ y < 10, Nat.digitChar x = Nat.digitChar y → x = y := by decide

theorem decDigits_ne_nil (n : ℕ) : decDigits n ≠ [] := by
  rw [decDigits]
  split <;> simp

theorem decDigits_inj (n : ℕ) : ∀ m, decDigits n = decDigits m → n = m := by
  induction n using Nat.strong_induction_on with
  | _ n ih =>
    intro m h
    conv_lhs at h => rw [decDigits]
    conv_rhs at h => rw [decDigits]
    by_cases hn : n < 10 <;> by_cases hm : m < 10
    · rw [if_pos hn, if_pos hm] at h
      exact digitChar_inj_lt n hn m hm (by injection h)
    · rw [if_pos hn, if_neg hm] at h
      have hlen := congrArg List.length h
      rw [List.length_append] at hlen
      simp only [List.length_cons, List.length_nil] at hlen
      have h0 : (decDigits (m / 10)).length = 0 := by omega
      exact absurd (List.length_eq_zero.mp h0) (decDigits_ne_nil (m / 10))
    · rw [if_neg hn, if_pos hm] at h
      have hlen := congrArg List.length h
      rw [List.length_append] at hlen
      simp only [List.length_cons, List.length_nil] at hlen
      have h0 : (decDigits (n / 10)).length = 0 := by omega
      exact absurd (List.length_eq_zero.mp h0) (decDigits_ne_nil (n / 10))
    · rw [if_neg hn, if_neg hm] at h
      obtain ⟨h1, h2⟩ := List.append_inj' h (by simp)
      have hdiv : n / 10 = m / 10 :=
        ih (n / 10) (Nat.div_lt_self (by omega) (by omega)) (m / 10) h1
      have hmod : n % 10 = m % 10 :=
        digitChar_inj_lt _ (Nat.mod_lt n (by omega)) _ (Nat.mod_lt m (by omega))
          (by injection h2)
      omega

theorem nat_repr_inj {n m : ℕ} (h : Nat.repr n = Nat.repr m) : n = m := by
  have h1 : Nat.toDigits 10 n = Nat.toDigits 10 m := by
    have h2 := congrArg String.data h
    simpa [Nat.repr, List.asString] using h2
  rw [Nat.toDigits, Nat.toDigits,
    toDigitsCore_eq_decDigits (n + 1) n [] (by omega),
    toDigitsCore_eq_decDigits (m + 1) m [] (by omega)] at h1
  simp at h1
  exact decDigits_inj n m h1

theorem tagDir_atStep_inj (a : HyperArgs) {g g' : ℕ}
    (h : tagDir a (.atStep g) = tagDir a (.atStep g')) : g = g' := by
  rw [tagDir, tagDir] at h
  have h1 := congrArg String.data h
  simp only [String.data_append] at h1
  have h2 := List.append_cancel_left h1
  exact nat_repr_inj (String.ext h2)

/-! ### Rolling-window helpers -/

theorem lastN_length (k : ℕ) (xs : List ℚ) :
    (lastN k xs).length = min k xs.length := by
  simp [lastN]
  omega

theorem windowsFrom_mem_pos :
    ∀ (ls L w : List ℚ), w ∈ windowsFrom L ls → 0 < w.length := by
  intro ls
  induction ls with
  | nil => intro L w hw; simp [windowsFrom] at hw
  | cons l ls ih =>
    intro L w hw
    rw [windowsFrom] at hw
    rcases List.mem_cons.mp hw with h | h
    · rw [h, lastN_length, List.length_append]
      simp only [List.length_cons, List.length_nil]
      omega
    · exact ih _ _ h

theorem finalContent_latest (o : SavedObj) (tr : List Event) :
    finalContent o .latest tr = (latestSaves o tr).getLast? := by
  rw [finalContent, latestSaves]
  congr 1
  apply List.filterMap_congr
  intro ev _
  cases ev with
  | save o' tag c => cases tag <;> by_cases ho : o' = o <;> simp [ho]
  | samplerSetEpoch e => rfl
  | pbarInit => rfl
  | trainStep g l => rfl
  | barrier => rfl
  | pbarUpdate w => rfl
  | pbarClose => rfl

theorem getLast?_max_of_pairwise_lt :
    ∀ (l : List ℕ), l.Pairwise (· < ·) →
    ∀ g ∈ l, ∀ c, l.getLast? = some c → g ≤ c := by
  intro l
  induction l with
  | nil => intro _ g hg; simp at hg
  | cons a t ih =>
    intro hp g hg c hc
    obtain ⟨ha, hpt⟩ := List.pairwise_cons.mp hp
    cases t with
    | nil =>
      simp at hg hc
      omega
    | cons b t' =>
      rw [List.getLast?_cons_cons] at hc
      rcases List.mem_cons.mp hg with rfl | hg'
      · exact le_of_lt (ha c (List.mem_of_getLast?_eq_some hc))
      · exact ih hpt g hg' c hc

theorem pairwise_lt_filter_range' (p : ℕ → Bool) (s n : ℕ) :
    ((List.range' s n).filter p).Pairwise (· < ·) :=
  List.Pairwise.sublist (List.filter_sublist _) (List.pairwise_lt_range' s n)

/-! ### Claim theorems -/

/-- C1: with `0 < save_steps`, a step-cadence checkpoint is performed exactly
at the steps `g` (`1 ≤ g ≤ max_epoches * B`, the run's `global_step` values)
that are positive multiples of `save_steps`; at such a step the rank-0 process
saves the model and the tokenizer both to the step-tagged directory (whose
name ends with `_{global_step}`) and to the `_latest` directory, and at no
other step is a step-tagged cadence save performed. -/
theorem C1_cadence_saves (a : HyperArgs) (B : ℕ) (lossAt : ℕ → ℕ → ℚ)
    (hss : 0 < a.save_steps) :
    (∀ (o : SavedObj) (g c : ℕ),
       Event.save o (.atStep g) c ∈ (trainRun a 0 B lossAt).2 ↔
         c = g ∧ 0 < g ∧ g ≤ a.max_epoches * B ∧ a.save_steps ∣ g) ∧
    (∀ g : ℕ, 0 < g → g ≤ a.max_epoches * B → a.save_steps ∣ g →
       Event.save .model (.atStep g) g ∈ (trainRun a 0 B lossAt).2 ∧
       Event.save .tokenizer (.atStep g) g ∈ (trainRun a 0 B lossAt).2 ∧
       Event.save .model .latest g ∈ (trainRun a 0 B lossAt).2 ∧
       Event.save .tokenizer .latest g ∈ (trainRun a 0 B lossAt).2) ∧
    (∀ g : ℕ, strEndsWith (tagDir a (.atStep g)) ("_" ++ Nat.repr g)) ∧
    strEndsWith (tagDir a .latest) "_latest" := by
  have hstep : ∀ (o : SavedObj) (g c : ℕ),
      Event.save o (.atStep g) c ∈ (trainRun a 0 B lossAt).2 ↔
        c = g ∧ 0 < g ∧ g ≤ a.max_epoches * B ∧ a.save_steps ∣ g := by
    intro o g c
    rw [← mem_stepSaves, stepSaves_trainRun]
    constructor
    · intro hmem
      obtain ⟨x, hx, hpair⟩ := List.mem_map.mp hmem
      obtain ⟨hxr, hxp⟩ := List.mem_filter.mp hx
      obtain ⟨hx1, hx2⟩ := List.mem_range'_1.mp hxr
      have hxg : x = g := congrArg Prod.fst hpair
      have hxc : x = c := congrArg Prod.snd hpair
      subst hxg
      refine ⟨hxc.symm, by omega, by omega, ?_⟩
      rw [Nat.dvd_iff_mod_eq_zero]
      simpa using hxp
    · rintro ⟨hcg, hg1, hg2, hdvd⟩
      refine List.mem_map.mpr ⟨g, List.mem_filter.mpr
        ⟨List.mem_range'_1.mpr ⟨by omega, by omega⟩, ?_⟩, by rw [hcg]⟩
      rw [Nat.dvd_iff_mod_eq_zero] at hdvd
      simp [hdvd]
  have hlatest : ∀ (o : SavedObj) (g : ℕ),
      0 < g → g ≤ a.max_epoches * B → a.save_steps ∣ g →
      Event.save o .latest g ∈ (trainRun a 0 B lossAt).2 := by
    intro o g hg1 hg2 hdvd
    rw [← mem_latestSaves, latestSaves_trainRun]
    refine List.mem_filter.mpr
      ⟨List.mem_range'_1.mpr ⟨by omega, by omega⟩, ?_⟩
    rw [Nat.dvd_iff_mod_eq_zero] at hdvd
    simp [hdvd]
  refine ⟨hstep, ?_, fun g => tagDir_atStep_endsWith a g, tagDir_latest_endsWith a⟩
  intro g hg1 hg2 hdvd
  exact ⟨(hstep .model g g).mpr ⟨rfl, hg1, hg2, hdvd⟩,
    (hstep .tokenizer g g).mpr ⟨rfl, hg1, hg2, hdvd⟩,
    hlatest .model g hg1 hg2 hdvd, hlatest .tokenizer g hg1 hg2 hdvd⟩

theorem C1_cadence_saves_witness :
    0 < sampleArgs.save_steps ∧
    Event.save .model (.atStep 2) 2 ∈ (trainRun sampleArgs 0 2 zeroLoss).2 :=
  ⟨by decide,
   ((C1_cadence_saves sampleArgs 2 zeroLoss (by decide)).2.1 2 (by decide)
     (by decide) (by decide)).1⟩

/-- C2: at the end of every epoch the loop runs — all `max_epoches` of them
when the dataloader is non-empty, including the final epoch that ends through
the `max_steps` break — the rank-0 process saves the model and the tokenizer
to the `_epoch{epoch}` directory, `epoch` being the zero-based epoch index,
and to no other epoch index. -/
theorem C2_epoch_boundary_saves (a : HyperArgs) (B : ℕ) (lossAt : ℕ → ℕ → ℚ) :
    (∀ (o : SavedObj) (e c : ℕ),
       Event.save o (.epochEnd e) c ∈ (trainRun a 0 B lossAt).2 ↔
         e < epochsRun a.max_epoches B ∧ c = e * B + B) ∧
    (∀ e : ℕ, e < epochsRun a.max_epoches B →
       Event.save .model (.epochEnd e) (e * B + B) ∈ (trainRun a 0 B lossAt).2 ∧
       Event.save .tokenizer (.epochEnd e) (e * B + B) ∈
         (trainRun a 0 B lossAt).2) ∧
    (0 < B → epochsRun a.max_epoches B = a.max_epoches) ∧
    (∀ e : ℕ, strEndsWith (tagDir a (.epochEnd e)) ("_epoch" ++ Nat.repr e)) := by
  have hmem : ∀ (o : SavedObj) (e c : ℕ),
      Event.save o (.epochEnd e) c ∈ (trainRun a 0 B lossAt).2 ↔
        e < epochsRun a.max_epoches B ∧ c = e * B + B := by
    intro o e c
    rw [← mem_epochSaves, epochSaves_trainRun]
    constructor
    · intro hmem
      obtain ⟨x, hx, hpair⟩ := List.mem_map.mp hmem
      have hxe : x = e := congrArg Prod.fst hpair
      have hxc : x * B + B = c := congrArg Prod.snd hpair
      subst hxe
      exact ⟨List.mem_range.mp hx, hxc.symm⟩
    · rintro ⟨he, rfl⟩
      exact List.mem_map.mpr ⟨e, List.mem_range.mpr he, rfl⟩
  refine ⟨hmem, ?_, ?_, fun e => tagDir_epochEnd_endsWith a e⟩
  · intro e he
    exact ⟨(hmem .model e _).mpr ⟨he, rfl⟩, (hmem .tokenizer e _).mpr ⟨he, rfl⟩⟩
  · intro hB
    rw [epochsRun, if_neg (by omega)]

theorem C2_epoch_boundary_saves_witness :
    Event.save .model (.epochEnd 0) (0 * 2 + 2) ∈
      (trainRun sampleArgs 0 2 zeroLoss).2 :=
  ((C2_epoch_boundary_saves sampleArgs 2 zeroLoss).2.1 0 (by decide)).1

/-- C5: the training loop terminates (it is a total function of its inputs in
this model), and when the dataloader is non-empty (`0 < B`) the total number
of forward/backward/optimizer steps executed over the whole run is exactly
`max_epoches * B`, and the loop exits with `global_step = max_steps only`
when `global_step` has reached `max_steps = max_epoches * B`. -/
theorem C5_termination_and_step_count (a : HyperArgs) (rank : ℤ) (B : ℕ)
    (lossAt : ℕ → ℕ → ℚ) (hB : 0 < B) :
    (stepsOf (trainRun a rank B lossAt).2).length = a.max_epoches * B ∧
    (trainRun a rank B lossAt).1.global_step = a.max_epoches * B := by
  refine ⟨?_, (trainRun_trace a rank B lossAt hB).2⟩
  rw [stepsOf_trainRun]
  simp

theorem C5_termination_and_step_count_witness :
    0 < 2 ∧
    (stepsOf (trainRun sampleArgs 0 2 zeroLoss).2).length =
      sampleArgs.max_epoches * 2 :=
  ⟨by decide, (C5_termination_and_step_count sampleArgs 0 2 zeroLoss
    (by decide)).1⟩

/-- C9: the rolling-loss computation never divides by zero: every
`losses[-200:]` slice from which a displayed rolling loss is computed is
non-empty, because the current batch loss is appended to `losses` before the
progress-bar update. -/
theorem C9_rolling_window_nonempty (a : HyperArgs) (rank : ℤ) (B : ℕ)
    (lossAt : ℕ → ℕ → ℚ) :
    ∀ w ∈ pbarWindows (trainRun a rank B lossAt).2, 0 < w.length := by
  intro w hw
  by_cases hr : rank = 0
  · subst hr
    rw [pbarWindows_trainRun] at hw
    obtain ⟨e, _, hwe⟩ := List.mem_flatMap.mp hw
    exact windowsFrom_mem_pos _ _ _ hwe
  · rw [pbarWindows_eq_nil_of_count_zero _
      (pbarEventCount_trainRun a rank hr B lossAt)] at hw
    simp at hw

theorem C9_rolling_window_nonempty_witness :
    [(0 : ℚ)] ∈ pbarWindows (trainRun sampleArgs 0 1 zeroLoss).2 ∧
    0 < [(0 : ℚ)].length :=
  ⟨by decide,
   C9_rolling_window_nonempty sampleArgs 0 1 zeroLoss [(0 : ℚ)] (by decide)⟩

/-- C10: `global_step` starts at 0 and the engine-step counters of the trace
are exactly `1, 2, ..., max_epoches * B` (incremented by one per batch, never
reset, strictly increasing); consequently the step-tagged cadence checkpoint
directory names are pairwise distinct, every cadence save also overwrites the
`_latest` directory (in the same order), and the final content of `_latest`
is the last — equivalently the largest — cadence step of the run. -/
theorem C10_global_step_monotone_and_latest (a : HyperArgs) (B : ℕ)
    (lossAt : ℕ → ℕ → ℚ) :
    stepsOf (trainRun a 0 B lossAt).2 = List.range' 1 (a.max_epoches * B) ∧
    (stepsOf (trainRun a 0 B lossAt).2).Pairwise (· < ·) ∧
    ((stepSaves .model (trainRun a 0 B lossAt).2).map
        (fun pc => tagDir a (.atStep pc.1))).Pairwise (· ≠ ·) ∧
    latestSaves .model (trainRun a 0 B lossAt).2 =
      (stepSaves .model (trainRun a 0 B lossAt).2).map Prod.fst ∧
    finalContent .model .latest (trainRun a 0 B lossAt).2 =
      (latestSaves .model (trainRun a 0 B lossAt).2).getLast? ∧
    (∀ g ∈ latestSaves .model (trainRun a 0 B lossAt).2, ∀ c : ℕ,
       finalContent .model .latest (trainRun a 0 B lossAt).2 = some c →
       g ≤ c) := by
  refine ⟨stepsOf_trainRun a 0 B lossAt, ?_, ?_, ?_, finalContent_latest _ _, ?_⟩
  · rw [stepsOf_trainRun]
    exact List.pairwise_lt_range' 1 (a.max_epoches * B)
  · rw [stepSaves_trainRun, List.map_map, List.pairwise_map]
    refine (pairwise_lt_filter_range' _ 1 (a.max_epoches * B)).imp ?_
    intro x y hxy heq
    exact absurd (tagDir_atStep_inj a heq) (Nat.ne_of_lt hxy)
  · rw [stepSaves_trainRun, latestSaves_trainRun, List.map_map]
    exact (List.map_id'' (fun x => rfl) _).symm
  · intro g hg c hc
    rw [finalContent_latest] at hc
    rw [latestSaves_trainRun] at hg hc
    exact getLast?_max_of_pairwise_lt _
      (pairwise_lt_filter_range' _ 1 (a.max_epoches * B)) g hg c hc

theorem C10_global_step_monotone_and_latest_witness :
    stepsOf (trainRun sampleArgs 0 2 zeroLoss).2 =
      List.range' 1 (sampleArgs.max_epoches * 2) :=
  (C10_global_step_monotone_and_latest sampleArgs 2 zeroLoss).1

theorem scanBlocks_append :
    ∀ (xs ys : List Event) (st : ℕ),
    scanBlocks st (xs ++ ys) =
      (scanBlocks st xs).bind (fun st' => scanBlocks st' ys) := by
  intro xs
  induction xs with
  | nil => intro ys st; rfl
  | cons ev xs ih =>
    intro ys st
    cases ev <;> simp only [List.cons_append, scanBlocks] <;>
      first
        | exact ih ys 1
        | (split
           · rfl
           · first
             | exact ih ys 2
             | exact ih ys 0)

theorem scanOk_append {t u : List Event} (ht : ScanOk t) (hu : ScanOk u) :
    ScanOk (t ++ u) := by
  intro st hst
  obtain ⟨st1, h1, hst1⟩ := ht st hst
  obtain ⟨st2, h2, hst2⟩ := hu st1 hst1
  refine ⟨st2, ?_, hst2⟩
  rw [scanBlocks_append, h1]
  exact h2

theorem scanOk_nil : ScanOk [] := by
  intro st hst
  exact ⟨st, rfl, hst⟩

theorem scanOk_cadenceBlock (rank : ℤ) (g : ℕ) :
    ScanOk (cadenceBlock rank g) := by
  intro st hst
  by_cases hr : rank = 0 <;> simp [cadenceBlock, scanBlocks, hr]

theorem scanOk_epochSaveBlock (rank : ℤ) (e g : ℕ) :
    ScanOk (epochSaveBlock rank e g) := by
  intro st hst
  by_cases hr : rank = 0 <;> simp [epochSaveBlock, scanBlocks, hr]

theorem scanOk_batchChunk (ss : ℕ) (rank : ℤ) (g : ℕ) (ls : List ℚ) (l : ℚ) :
    ScanOk (batchChunk ss rank g ls l) := by
  rw [batchChunk, ← List.singleton_append]
  refine scanOk_append ?_ (scanOk_append ?_ ?_)
  · intro st hst
    rcases hst with rfl | rfl <;> simp [scanBlocks]
  · split
    · exact scanOk_cadenceBlock rank g
    · exact scanOk_nil
  · split
    · intro st hst
      rcases hst with rfl | rfl <;> simp [scanBlocks]
    · exact scanOk_nil

theorem scanOk_batchTraces (ss : ℕ) (rank : ℤ) :
    ∀ (ls : List ℚ) (s : LoopState), ScanOk (batchTraces ss rank s ls) := by
  intro ls
  induction ls with
  | nil => intro s; exact scanOk_nil
  | cons l ls ih =>
    intro s
    rw [batchTraces]
    exact scanOk_append (scanOk_batchChunk _ _ _ _ _) (ih _)

theorem scanOk_epochChunk (ss : ℕ) (rank : ℤ) (e g0 : ℕ) (bl : List ℚ) :
    ScanOk (epochChunk ss rank e g0 bl) := by
  rw [epochChunk]
  refine scanOk_append (scanOk_append ?_ ?_)
    (scanOk_append (scanOk_batchTraces ss rank bl _)
      (scanOk_append (scanOk_epochSaveBlock rank e _) ?_)) <;>
    first
    | (split
       · intro st hst
         rcases hst with rfl | rfl <;> simp [scanBlocks]
       · exact scanOk_nil)

theorem scanOk_fullTrace (ss : ℕ) (rank : ℤ) (B : ℕ) (lossesOf : ℕ → List ℚ) :
    ∀ E, ScanOk (fullTrace ss rank E B lossesOf) := by
  intro E
  induction E with
  | zero => exact scanOk_nil
  | succ E ih =>
    rw [fullTrace_succ]
    exact scanOk_append ih (scanOk_epochChunk _ _ _ _ _)

theorem scanOk_trainRun (a : HyperArgs) (rank : ℤ) (B : ℕ)
    (lossAt : ℕ → ℕ → ℚ) : ScanOk (trainRun a rank B lossAt).2 := by
  cases B with
  | zero =>
    rw [(trainRun_trace_zero a rank lossAt).1]
    cases a.max_epoches with
    | zero => exact scanOk_nil
    | succ n => exact scanOk_epochChunk _ _ _ _ _
  | succ b =>
    rw [(trainRun_trace a rank (b + 1) lossAt (Nat.succ_pos b)).1]
    exact scanOk_fullTrace _ _ _ _ _

/-! ### Rolling-loss window shapes -/

theorem windowsFrom_eq :
    ∀ (ls L : List ℚ),
    windowsFrom L ls =
      (List.range ls.length).map (fun i => lastN 200 (L ++ ls.take (i + 1))) := by
  intro ls
  induction ls with
  | nil => intro L; rfl
  | cons l ls ih =>
    intro L
    rw [windowsFrom, ih (L ++ [l]), List.length_cons, List.range_succ_eq_map,
      List.map_cons, List.map_map]
    refine congrArg₂ List.cons (by simp) ?_
    apply List.map_congr_left
    intro i _
    simp [Function.comp, List.take_succ_cons, List.append_assoc]

theorem lastN_eq_min (k : ℕ) (xs : List ℚ) :
    lastN k xs = lastN (min k xs.length) xs := by
  rw [lastN, lastN]
  congr 1
  omega

/-- C3: checkpoint saving and progress-bar operations happen only on rank 0 —
a process of any other rank performs no save and no progress-bar operation —
and every checkpoint save block (step-cadence and epoch-boundary alike) is
immediately preceded and immediately followed by a `dist.barrier()`; the
barrier events themselves are executed identically by every rank (same
count in the same loop structure). -/
theorem C3_rank0_gating_and_barriers (a : HyperArgs) (B : ℕ)
    (lossAt : ℕ → ℕ → ℚ) :
    (∀ rank : ℤ, rank ≠ 0 →
       saveEventCount (trainRun a rank B lossAt).2 = 0 ∧
       pbarEventCount (trainRun a rank B lossAt).2 = 0) ∧
    (∀ rank : ℤ, ∃ st : ℕ,
       scanBlocks 0 (trainRun a rank B lossAt).2 = some st ∧ st ≠ 2) ∧
    (∀ r1 r2 : ℤ, barrierCount (trainRun a r1 B lossAt).2 =
       barrierCount (trainRun a r2 B lossAt).2) := by
  refine ⟨?_, ?_, ?_⟩
  · intro rank hr
    exact ⟨saveEventCount_trainRun a rank hr B lossAt,
      pbarEventCount_trainRun a rank hr B lossAt⟩
  · intro rank
    obtain ⟨st, hst, hne⟩ := scanOk_trainRun a rank B lossAt 0 (Or.inl rfl)
    exact ⟨st, hst, by omega⟩
  · intro r1 r2
    rw [barrierCount_trainRun, barrierCount_trainRun]

theorem C3_rank0_gating_and_barriers_witness :
    (1 : ℤ) ≠ 0 ∧
    saveEventCount (trainRun sampleArgs 1 2 zeroLoss).2 = 0 :=
  ⟨by decide,
   ((C3_rank0_gating_and_barriers sampleArgs 2 zeroLoss).1 1 (by decide)).1⟩

/-- C4: the rolling loss displayed after batch `i` of epoch `e` equals the
arithmetic mean of the last `min 200 (i+1)` batch losses recorded in that
epoch; the recorded-losses list restarts empty at each epoch, so the window
never spans an epoch boundary (each displayed value depends only on the
current epoch's losses). -/
theorem C4_rolling_loss_mean (a : HyperArgs) (B : ℕ) (lossAt : ℕ → ℕ → ℚ) :
    pbarVals (trainRun a 0 B lossAt).2 =
      (List.range (epochsRun a.max_epoches B)).flatMap
        (fun e => (List.range B).map (specRollingMean lossAt e)) := by
  rw [pbarVals, pbarWindows_trainRun, List.map_flatMap]
  refine congrArg ((List.range (epochsRun a.max_epoches B)).flatMap) (funext ?_)
  intro e
  rw [windowsFrom_eq, List.length_map, List.length_range, List.map_map]
  apply List.map_congr_left
  intro i hi
  have hiB : i < B := List.mem_range.mp hi
  simp only [Function.comp, List.nil_append]
  have htake : ((List.range B).map (lossAt e)).take (i + 1) =
      (List.range (i + 1)).map (lossAt e) := by
    rw [← List.map_take, List.take_range]
    have hmin : min (i + 1) B = i + 1 := by omega
    rw [hmin]
  rw [htake]
  have h1 : lastN 200 ((List.range (i + 1)).map (lossAt e)) =
      lastN (min 200 (i + 1)) ((List.range (i + 1)).map (lossAt e)) := by
    rw [lastN_eq_min, List.length_map, List.length_range]
  have h2 : (lastN 200 ((List.range (i + 1)).map (lossAt e))).length =
      min 200 (i + 1) := by
    rw [lastN_length, List.length_map, List.length_range]
  rw [specRollingMean, h2, h1]

theorem C4_rolling_loss_mean_witness :
    pbarVals (trainRun sampleArgs 0 1 zeroLoss).2 =
      (List.range (epochsRun sampleArgs.max_epoches 1)).flatMap
        (fun e => (List.range 1).map (specRollingMean zeroLoss e)) :=
  C4_rolling_loss_mean sampleArgs 1 zeroLoss

/-- C6: the training-data source is selected by the dataset-adapter name:
data is unpickled from `data_path` exactly when `dataset_type` contains the
substring `"Ids"` — which, among the three admissible choices, holds only
for `"DatasetIds"` — and otherwise raw multi-round dialogue text is loaded;
either way the result is wrapped in the adapter whose class name equals
`dataset_type`, constructed from the tokenizer, the data and `max_length`. -/
theorem C6_dataset_selection :
    (∀ dt ∈ dataset_choices,
       strContains dt "Ids" = decide (dt = "DatasetIds")) ∧
    (∀ dt ∈ dataset_choices, ∀ (path : String) (rank mts : ℤ),
       loadTrainingData dt path rank mts =
         if dt = "DatasetIds" then RawData.pickled path
         else RawData.multiround path rank mts) ∧
    (∀ (dt path : String) (rank mts : ℤ) (tok : Tokenizer) (ml : ℤ),
       buildTrainDataset dt tok (loadTrainingData dt path rank mts) ml =
         ⟨dt, tok, loadTrainingData dt path rank mts, ml⟩) := by
  refine ⟨?_, ?_, fun dt path rank mts tok ml => rfl⟩
  · intro dt hdt
    simp only [dataset_choices, List.mem_cons, List.not_mem_nil,
      or_false] at hdt
    rcases hdt with rfl | rfl | rfl <;> decide
  · intro dt hdt path rank mts
    simp only [dataset_choices, List.mem_cons, List.not_mem_nil,
      or_false] at hdt
    rcases hdt with rfl | rfl | rfl
    · have hc : strContains "GPT2Dataset_onlyres" "Ids" = false := by decide
      rw [loadTrainingData, hc, if_neg (by simp), if_neg (by decide)]
    · have hc : strContains "BertDataset_onlyres" "Ids" = false := by decide
      rw [loadTrainingData, hc, if_neg (by simp), if_neg (by decide)]
    · have hc : strContains "DatasetIds" "Ids" = true := by decide
      rw [loadTrainingData, hc, if_pos rfl, if_pos (by decide)]

theorem C6_dataset_selection_witness :
    ("DatasetIds" ∈ dataset_choices) ∧
    strContains "DatasetIds" "Ids" = decide ("DatasetIds" = "DatasetIds") :=
  ⟨by decide, C6_dataset_selection.1 "DatasetIds" (by decide)⟩

/-- C7: before being handed to the distributed-training engine the pretrained
model is always wrapped with low-rank adapters: the engine receives exactly
the wrapped model; when `load_lora` is set the wrapping resumes previously
saved adapter weights from `load_lora_path` with `is_trainable = true`, and
otherwise a fresh adapter wrapping is created from the static
`lora_config`. -/
theorem C7_lora_wrapping (p : String) (base : BaseModel) :
    (∀ load_lora : Bool,
       (engineForRun load_lora p base).model = wrapWithLora load_lora p base) ∧
    wrapWithLora true p base = .fromPretrainedPeft base p true ∧
    wrapWithLora false p base = .freshPeft base lora_config := by
  exact ⟨fun _ => rfl, rfl, rfl⟩

theorem C7_lora_wrapping_witness :
    (engineForRun true "lora/ckpt" ⟨"model/path"⟩).model =
      wrapWithLora true "lora/ckpt" ⟨"model/path"⟩ :=
  (C7_lora_wrapping "lora/ckpt" ⟨"model/path"⟩).1 true

/-- C8: the directory setup runs before any model or data loading and, for
each of `save_dir` and `save_dir + save_name` in that order, creates the
directory exactly when it does not exist at its check, leaving existing
entries unchanged (created directories are appended; nothing else changes). -/
theorem C8_directory_setup (fs : List String) (sd sn : String) :
    (∀ p, p ∈ (setupDirs fs sd sn).1 ↔ p ∈ fs ∨ p = sd ∨ p = sd ++ sn) ∧
    (setupDirs fs sd sn).1 = fs ++ (setupDirs fs sd sn).2 ∧
    ((setupDirs fs sd sn).2).Nodup ∧
    (∀ p ∈ (setupDirs fs sd sn).2, p ∉ fs ∧ (p = sd ∨ p = sd ++ sn)) ∧
    (∀ p, (p = sd ∨ p = sd ++ sn) → p ∉ fs → p ∈ (setupDirs fs sd sn).2) ∧
    (∀ b : Bool,
       (mainPhases b).indexOf .make_dirs < (mainPhases b).indexOf .load_tokenizer ∧
       (mainPhases b).indexOf .make_dirs < (mainPhases b).indexOf .load_data ∧
       (mainPhases b).indexOf .make_dirs < (mainPhases b).indexOf .load_base_model) := by
  have hstep : ∀ (X : List String) (q : String),
      mkdirSeq X [q] = if q ∈ X then (X, []) else (X ++ [q], [q]) := by
    intro X q
    rw [mkdirSeq]
    split
    · rw [mkdirSeq]
    · rw [mkdirSeq]
  have hmain : setupDirs fs sd sn =
      if sd ∈ fs then
        (if sd ++ sn ∈ fs then (fs, []) else (fs ++ [sd ++ sn], [sd ++ sn]))
      else
        (if sd ++ sn ∈ fs ++ [sd] then (fs ++ [sd], [sd])
         else (fs ++ [sd] ++ [sd ++ sn], [sd, sd ++ sn])) := by
    rw [setupDirs, mkdirSeq]
    split
    · rw [hstep]
    · rw [hstep]
      split
      · rfl
      · rfl
  have horder : ∀ b : Bool,
      (mainPhases b).indexOf .make_dirs < (mainPhases b).indexOf .load_tokenizer ∧
      (mainPhases b).indexOf .make_dirs < (mainPhases b).indexOf .load_data ∧
      (mainPhases b).indexOf .make_dirs < (mainPhases b).indexOf .load_base_model := by
    intro b
    cases b <;> decide
  rw [hmain]
  by_cases h1 : sd ∈ fs <;> by_cases h2 : sd ++ sn ∈ fs
  · rw [if_pos h1, if_pos h2]
    refine ⟨?_, by simp, by simp, by simp, ?_, horder⟩
    · intro p
      constructor
      · exact fun h => Or.inl h
      · rintro (h | rfl | rfl) <;> assumption
    · rintro p (rfl | rfl) hp <;> exact absurd (by assumption) hp
  · rw [if_pos h1, if_neg h2]
    refine ⟨?_, by simp, by simp, ?_, ?_, horder⟩
    · intro p
      simp only [List.mem_append, List.mem_singleton]
      constructor
      · rintro (h | rfl)
        · exact Or.inl h
        · exact Or.inr (Or.inr rfl)
      · rintro (h | rfl | rfl)
        · exact Or.inl h
        · exact Or.inl h1
        · exact Or.inr rfl
    · intro p hp
      simp only [List.mem_singleton] at hp
      subst hp
      exact ⟨h2, Or.inr rfl⟩
    · rintro p (rfl | rfl) hp
      · exact absurd h1 hp
      · simp
  · have h2' : sd ++ sn ∈ fs ++ [sd] := List.mem_append.mpr (Or.inl h2)
    rw [if_neg h1, if_pos h2']
    refine ⟨?_, by simp, by simp, ?_, ?_, horder⟩
    · intro p
      simp only [List.mem_append, List.mem_singleton]
      constructor
      · rintro (h | rfl)
        · exact Or.inl h
        · exact Or.inr (Or.inl rfl)
      · rintro (h | rfl | rfl)
        · exact Or.inl h
        · exact Or.inr rfl
        · exact Or.inl h2
    · intro p hp
      simp only [List.mem_singleton] at hp
      subst hp
      exact ⟨h1, Or.inl rfl⟩
    · rintro p (rfl | rfl) hp
      · simp
      · exact absurd h2 hp
  · by_cases h3 : sd ++ sn = sd
    · have h2' : sd ++ sn ∈ fs ++ [sd] :=
        List.mem_append.mpr (Or.inr (by simp [h3]))
      rw [if_neg h1, if_pos h2']
      refine ⟨?_, by simp, by simp, ?_, ?_, horder⟩
      · intro p
        simp only [List.mem_append, List.mem_singleton]
        constructor
        · rintro (h | rfl)
          · exact Or.inl h
          · exact Or.inr (Or.inl rfl)
        · rintro (h | rfl | rfl)
          · exact Or.inl h
          · exact Or.inr rfl
          · exact Or.inr h3
      · intro p hp
        simp only [List.mem_singleton] at hp
        subst hp
        exact ⟨h1, Or.inl rfl⟩
      · rintro p (rfl | rfl) hp
        · simp
        · rw [h3]
          simp
    · have h2' : sd ++ sn ∉ fs ++ [sd] := by
        simp only [List.mem_append, List.mem_singleton]
        rintro (h | h)
        · exact h2 h
        · exact h3 h
      rw [if_neg h1, if_neg h2']
      refine ⟨?_, by simp, ?_, ?_, ?_, horder⟩
      · intro p
        simp only [List.mem_append, List.mem_singleton]
        constructor
        · rintro ((h | rfl) | rfl)
          · exact Or.inl h
          · exact Or.inr (Or.inl rfl)
          · exact Or.inr (Or.inr rfl)
        · rintro (h | rfl | rfl)
          · exact Or.inl (Or.inl h)
          · exact Or.inl (Or.inr rfl)
          · exact Or.inr rfl
      · refine List.nodup_cons.mpr ⟨?_, ?_⟩
        · simp only [List.mem_singleton]
          intro h
          exact h3 h.symm
        · exact List.nodup_singleton _
      · intro p hp
        simp only [List.mem_cons, List.mem_singleton, List.not_mem_nil,
          or_false] at hp
        rcases hp with rfl | rfl
        · exact ⟨h1, Or.inl rfl⟩
        · exact ⟨h2, Or.inr rfl⟩
      · rintro p (rfl | rfl) hp <;> simp

theorem C8_directory_setup_witness :
    ("ckp/" ∈ (setupDirs [] "ckp/" "model").2) ∧
    (mainPhases true).indexOf .make_dirs <
      (mainPhases true).indexOf .load_tokenizer :=
  ⟨(C8_directory_setup [] "ckp/" "model").2.2.2.2.1 "ckp/" (Or.inl rfl)
     (by simp),
   ((C8_directory_setup [] "ckp/" "model").2.2.2.2.2 true).1⟩

end Finetune

